import Mathlib

/-!
Shallow embedding of `stockdownloader.py`.

Dates are modelled as natural day numbers, with day `0` falling on a Monday,
so a day `d` is a weekday exactly when `d % 7 < 5` (pandas frequency `'B'`).
Timestamps are modelled as natural numbers counting minutes, with minute
`d * 1440` being midnight (UTC) of day `d`.  A trading calendar (the
`pandas_market_calendars` NYSE object) is a list of session days together
with, for each session, the market-close offset in minutes after midnight;
`valid_days(a, b)` is embedded as filtering the session list to `[a, b]`
and `schedule(d)['market_close']` as the close timestamp of day `d`.
The date strings `'YYYY-MM-DD'` of the Python code compare
lexicographically, which agrees with chronological order, so mapping them
to day numbers preserves every comparison the code performs.
-/

namespace StockDownloader

/-- Trading calendar: the ordered list of session days and, per day, the
market-close offset in minutes after that day's (UTC) midnight. -/
structure Calendar where
  sessions : List Nat
  closeOfs : Nat → Nat

/-- Close timestamp (minutes) of day `d`: midnight plus the close offset. -/
def Calendar.close (cal : Calendar) (d : Nat) : Nat := d * 1440 + cal.closeOfs d

/-- Weekday test for pandas frequency `'B'`: day 0 is a Monday. -/
def isBusinessDay (d : Nat) : Bool := decide (d % 7 < 5)

/-- Embeds `last_trading_day` up to the final `market_close` projection:
this helper returns the session day whose close `last_trading_day` returns.
`valid_days(first_day_of_year, utcnow())` is the filter (a day enters the
range exactly when it is at most `now`'s date, `now / 1440`); the Python
negative indices `valid_days[-1]` and `valid_days[-2]` are the first and
second entries of the reversed list, and an `IndexError` (fewer valid days
than the index requires) is `none`.  The branch condition is the strict
comparison `utcnow() > market_close_today_utc` of the source. -/
def last_trading_day_date (cal : Calendar) (yearStart now : Nat) : Option Nat :=
  let validDays := cal.sessions.filter
    (fun d => decide (yearStart ≤ d) && decide (d ≤ now / 1440))
  match validDays.reverse with
  | [] => none
  | lastDay :: rest => if cal.close lastDay < now then some lastDay else rest.head?

/-- Embeds `last_trading_day`: the market-close timestamp of the session
selected by `last_trading_day_date` (the source returns
`market_close_today_utc` resp. `market_close_prev_day_utc`, i.e. the close
of the day it picked). -/
def last_trading_day (cal : Calendar) (yearStart now : Nat) : Option Nat :=
  (last_trading_day_date cal yearStart now).map cal.close

/-- Embeds `next_trading_day`.  `pd.date_range(start=d, periods=10, freq='B')`
is the list of the 10 weekdays in `[d, d + 13]` (any 14 consecutive days
contain exactly 10 weekdays, and pandas rolls a non-business start forward);
`future_dates[0]` / `future_dates[-1]` bound the `valid_days` window, the
sessions strictly greater than `d` are kept, and `.min()` of an empty
selection is `NaT`, embedded as `none`. -/
def next_trading_day (cal : Calendar) (d : Nat) : Option Nat :=
  let futureDates := ((List.range 14).map (fun i => d + i)).filter isBusinessDay
  match futureDates.head?, futureDates.getLast? with
  | some lo, some hi =>
      ((cal.sessions.filter (fun s => decide (lo ≤ s) && decide (s ≤ hi))).filter
        (fun s => decide (d < s))).min?
  | _, _ => none

/-- Embeds the inner function `anything_to_download` of `calculate_downloads`:
the Python expression `next_trading_day(nyse, d) < last_trading_day(nyse)`
compares the midnight timestamp of the next session with the close
timestamp returned by `last_trading_day`; a `NaT` on the left makes the
comparison `False`, while an exception inside `last_trading_day` (modelled
as `none`) propagates. -/
def anything_to_download (cal : Calendar) (yearStart now lu : Nat) : Option Bool :=
  (last_trading_day cal yearStart now).map (fun lastClose =>
    match next_trading_day cal lu with
    | some nxt => decide (nxt * 1440 < lastClose)
    | none => false)

/-- Contribution of one ticker to the `all_dates` list of
`calculate_downloads`: with a stored last date `lu` the pair `[lu, i]` is
appended when `anything_to_download lu` holds, nothing is appended when it
does not, and with no stored record the pair `[BEGINNING_DATE, i]` is
appended.  `lastUpdate` is the `get_last_update(i, db)` query (latest
stored date for the ticker, or `None`), and `beginningDate` the constant
`BEGINNING_DATE`. -/
def calc_entry (cal : Calendar) (yearStart now : Nat)
    (lastUpdate : String → Option Nat) (beginningDate : Nat) (t : String) :
    Option (List (Nat × String)) :=
  match lastUpdate t with
  | some lu =>
      match anything_to_download cal yearStart now lu with
      | some b => some (if b then [(lu, t)] else [])
      | none => none
  | none => some [(beginningDate, t)]

/-- The `all_dates` list built by the first loop of `calculate_downloads`,
ticker by ticker in input order; a calendar failure (`none`) anywhere
aborts the whole computation, as the uncaught Python exception would. -/
def calc_all_dates (cal : Calendar) (yearStart now : Nat)
    (lastUpdate : String → Option Nat) (beginningDate : Nat) :
    List String → Option (List (Nat × String))
  | [] => some []
  | t :: ts =>
      match calc_entry cal yearStart now lastUpdate beginningDate t,
            calc_all_dates cal yearStart now lastUpdate beginningDate ts with
      | some e, some r => some (e ++ r)
      | _, _ => none

/-- One step of the grouping loop `ticker_dict[date].append(ticker)` over a
`defaultdict(list)`: if the date is already a key, the ticker is appended
to its list (the key keeps its original position, as for a Python dict);
otherwise a new key is created at the end (insertion order). -/
def addPair (acc : List (Nat × List String)) (p : Nat × String) :
    List (Nat × List String) :=
  if p.1 ∈ acc.map Prod.fst then
    acc.map (fun q => if q.1 == p.1 then (q.1, q.2 ++ [p.2]) else q)
  else acc ++ [(p.1, [p.2])]

/-- The grouping loop of `calculate_downloads` (`defaultdict` build followed
by iteration over `ticker_dict.items()`, which is insertion order): each
plan entry is the dictionary `{"date": date, "tickers": tickers}`, embedded
as a pair. -/
def groupByDate (pairs : List (Nat × String)) : List (Nat × List String) :=
  pairs.foldl addPair []

/-- Embeds `calculate_downloads`: build `all_dates` from the store lookups,
then group by date. -/
def calculate_downloads (cal : Calendar) (yearStart now : Nat)
    (lastUpdate : String → Option Nat) (beginningDate : Nat)
    (tickers : List String) : Option (List (Nat × List String)) :=
  (calc_all_dates cal yearStart now lastUpdate beginningDate tickers).map groupByDate

/-- Keep-first deduplication, the semantics of Python dict key order and of
`pandas.Index.unique()`: each element keeps its first occurrence.  Stated
via Mathlib's keep-last `dedup` on the reversed list. -/
def firstDedup {α : Type} [DecidableEq α] (l : List α) : List α :=
  (l.reverse.dedup).reverse

/-- Distinct dates of a pair list, in order of first encounter. -/
def datesOf (pairs : List (Nat × String)) : List Nat :=
  firstDedup (pairs.map Prod.fst)

/-- Tickers recorded under date `d`, in input order. -/
def valuesAt (pairs : List (Nat × String)) (d : Nat) : List String :=
  (pairs.filter (fun p => p.1 == d)).map Prod.snd

/-- Closed form of `groupByDate`: one entry per distinct date in order of
first encounter, carrying all tickers of that date in input order. -/
def groupedByDate (pairs : List (Nat × String)) : List (Nat × List String) :=
  (datesOf pairs).map (fun d => (d, valuesAt pairs d))

/-- Derived from the branches of `calculate_downloads`: does the planner
record a download for ticker `t`?  `true` for an absent store record, and
otherwise the value of `anything_to_download` (a calendar failure counts
as `false` here; under a successful run it cannot occur). -/
def needsDownload (cal : Calendar) (yearStart now : Nat)
    (lastUpdate : String → Option Nat) (t : String) : Bool :=
  match lastUpdate t with
  | none => true
  | some lu => anything_to_download cal yearStart now lu == some true

/-- Derived from the branches of `calculate_downloads`: the start date the
planner would use for ticker `t` (`BEGINNING_DATE` for an absent record,
the stored last date otherwise). -/
def startDate (lastUpdate : String → Option Nat) (beginningDate : Nat)
    (t : String) : Nat :=
  match lastUpdate t with
  | none => beginningDate
  | some lu => lu


/-! Model of `data_download` and of the store used by `main`. -/

/-- Column labels of the provider response that `data_download` reads:
`'Open'`, `'High'`, `'Low'`, `'Adj Close'`. -/
inductive Field where
  | openCol
  | highCol
  | lowCol
  | adjClose
deriving DecidableEq

/-- Canonical record built by `data_download` (the dictionary with keys
`ticker`, `date`, `open`, `high`, `low`, `close`); a missing value (`NaN`
in the data frame) is `none`. -/
structure PriceRecord where
  ticker : String
  date : Nat
  op : Option Int
  high : Option Int
  low : Option Int
  close : Option Int
deriving DecidableEq

/-- Single-instrument provider response: flat columns over a date index
(the index may repeat; `data_download` applies `.unique()`). -/
structure SingleResp where
  dates : List Nat
  val : Field → Nat → Option Int

/-- Multi-instrument provider response: columns keyed by (field, ticker)
pairs (a pandas `MultiIndex`); a (field, ticker, date) cell that holds no
data is `none` (`NaN`). -/
structure MultiResp where
  dates : List Nat
  val : Field → String → Nat → Option Int

/-- The two shapes a `yf.download` response can take. -/
inductive Resp where
  | flat (s : SingleResp)
  | multi (m : MultiResp)

/-- Embeds the normalization part of `data_download` (the network call is
the external provider; its response is the input here).  An empty ticker
list returns `None`; a `MultiIndex` response is walked date-major over the
unique dates and the full requested ticker list; a flat response is
attributed to `tickers[0]`.  `open`/`high`/`low` come from the
`Open`/`High`/`Low` columns and `close` from `Adj Close` in both branches. -/
def data_download (tickers : List String) (r : Resp) : Option (List PriceRecord) :=
  match tickers with
  | [] => none
  | t0 :: _ =>
      match r with
      | Resp.multi m =>
          some (((firstDedup m.dates).map (fun date => tickers.map (fun t =>
            ({ ticker := t, date := date,
               op := m.val Field.openCol t date,
               high := m.val Field.highCol t date,
               low := m.val Field.lowCol t date,
               close := m.val Field.adjClose t date } : PriceRecord)))).flatten)
      | Resp.flat s =>
          some ((firstDedup s.dates).map (fun date =>
            ({ ticker := t0, date := date,
               op := s.val Field.openCol date,
               high := s.val Field.highCol date,
               low := s.val Field.lowCol date,
               close := s.val Field.adjClose date } : PriceRecord)))

/-- Same (ticker, date) key, the pair indexed uniquely by `init_db`. -/
def sameKey (r q : PriceRecord) : Bool :=
  q.ticker == r.ticker && q.date == r.date

/-- Modelled from the spec: the storage layer's write behavior under the
unique hash index on `['ticker', 'date']` that `init_db` creates.  The
ArangoDB collection and its bulk import are external collaborators (not
code of this repository), so §4.4 of the spec is used: inserting a record
whose (instrument, date) key already exists must not produce a second row
(the duplicate is rejected), otherwise the record is appended. -/
def insert_record (col : List PriceRecord) (r : PriceRecord) : List PriceRecord :=
  if col.any (sameKey r) then col else col ++ [r]

/-- Modelled from the spec: `col.import_bulk(records)` of `main`, inserting
the records in order subject to the unique (ticker, date) index. -/
def import_bulk (col : List PriceRecord) (rs : List PriceRecord) : List PriceRecord :=
  rs.foldl insert_record col

/-- Key-uniqueness invariant of the stocks collection: no two rows share
the (ticker, date) pair. -/
def uniqueKeys (col : List PriceRecord) : Prop :=
  col.Pairwise (fun q r => ¬(q.ticker = r.ticker ∧ q.date = r.date))

/-! Concrete instances used by counterexamples and witnesses. -/

/-- One trading week: sessions on days 0-4 (Monday-Friday), market close at
21:00 UTC, minute 1260 of each day. -/
def exCal : Calendar := ⟨[0, 1, 2, 3, 4], fun _ => 1260⟩

/-- Store lookup with ticker B last stored on day 3, one session before the
last completed session of `exCal` at `now = 7080`. -/
def exLU : String → Option Nat := fun t => if t = "B" then some 3 else none

/-- Store lookup with ticker X last stored on day 100; the forward window
from day 100 contains no `exCal` session. -/
def exLUX : String → Option Nat := fun t => if t = "X" then some 100 else none

/-- Store lookup for the partition instance: A and C share day 3, U is on
day 4 (up to date at `now = 7080`), every other ticker is absent. -/
def exLUP : String → Option Nat := fun t =>
  if t = "A" then some 3 else
  if t = "C" then some 3 else
  if t = "U" then some 4 else none

/-- A concrete price record. -/
def exRec : PriceRecord := ⟨"AAPL", 10, some 1, some 2, some 3, some 4⟩

/-- A concrete single-instrument response (with a repeated index date). -/
def exSingle : SingleResp := ⟨[10, 11, 10], fun _ d => some (Int.ofNat d)⟩

/-- The matching multi-instrument response holding the same data. -/
def exMulti : MultiResp := ⟨[10, 11, 10], fun _ _ d => some (Int.ofNat d)⟩

/-! Lemmas about keep-first deduplication. -/

theorem mem_firstDedup {α : Type} [DecidableEq α] {a : α} {l : List α} :
    a ∈ firstDedup l ↔ a ∈ l := by
  simp [firstDedup]

theorem nodup_firstDedup {α : Type} [DecidableEq α] (l : List α) :
    (firstDedup l).Nodup := by
  simp [firstDedup, List.nodup_reverse]
  exact List.nodup_dedup _

theorem firstDedup_sublist {α : Type} [DecidableEq α] (l : List α) :
    (firstDedup l).Sublist l := by
  have h := List.dedup_sublist l.reverse
  have h2 := (@List.reverse_sublist α l.reverse.dedup l.reverse).mpr h
  simpa [firstDedup] using h2

theorem firstDedup_append {α : Type} [DecidableEq α] (a : α) (l : List α) :
    firstDedup (l ++ [a]) = if a ∈ l then firstDedup l else firstDedup l ++ [a] := by
  by_cases h : a ∈ l
  · simp only [firstDedup, List.reverse_append, List.reverse_singleton, List.singleton_append]
    rw [List.dedup_cons_of_mem (by simpa using h)]
    simp [h]
  · simp only [firstDedup, List.reverse_append, List.reverse_singleton, List.singleton_append]
    rw [List.dedup_cons_of_not_mem (by simpa using h)]
    simp [h]

theorem firstDedup_eq_nil {α : Type} [DecidableEq α] {l : List α} :
    firstDedup l = [] ↔ l = [] := by
  constructor
  · intro h
    rcases l with _ | ⟨x, xs⟩
    · rfl
    · exfalso
      have : x ∈ firstDedup (x :: xs) := mem_firstDedup.mpr (by simp)
      rw [h] at this
      simp at this
  · intro h; subst h; rfl

/-! The fold of `addPair` computes the closed-form grouping. -/

theorem valuesAt_append (pairs : List (Nat × String)) (p : Nat × String) (d : Nat) :
    valuesAt (pairs ++ [p]) d =
      valuesAt pairs d ++ (if p.1 == d then [p.2] else []) := by
  simp only [valuesAt, List.filter_append]
  by_cases h : p.1 == d <;> simp [List.filter, h]

theorem datesOf_append (pairs : List (Nat × String)) (p : Nat × String) :
    datesOf (pairs ++ [p]) =
      if p.1 ∈ pairs.map Prod.fst then datesOf pairs else datesOf pairs ++ [p.1] := by
  simp only [datesOf, List.map_append, List.map_cons, List.map_nil]
  exact firstDedup_append p.1 (pairs.map Prod.fst)

theorem valuesAt_eq_nil_of_not_mem {pairs : List (Nat × String)} {d : Nat}
    (h : d ∉ pairs.map Prod.fst) : valuesAt pairs d = [] := by
  simp only [valuesAt, List.map_eq_nil_iff]
  rw [List.filter_eq_nil_iff]
  intro a ha had
  exact h (List.mem_map.mpr ⟨a, ha, by simpa using had⟩)

theorem addPair_grouped (pairs : List (Nat × String)) (p : Nat × String) :
    addPair (groupedByDate pairs) p = groupedByDate (pairs ++ [p]) := by
  have hkeys : (groupedByDate pairs).map Prod.fst = datesOf pairs := by
    simp [groupedByDate, List.map_map, Function.comp_def]
  by_cases h : p.1 ∈ pairs.map Prod.fst
  · have hmem : p.1 ∈ (groupedByDate pairs).map Prod.fst := by
      rw [hkeys]; exact mem_firstDedup.mpr h
    unfold addPair
    rw [if_pos hmem]
    simp only [groupedByDate]
    rw [datesOf_append, if_pos h, List.map_map]
    apply List.map_congr_left
    intro d _
    by_cases hd : d = p.1
    · subst hd
      simp [Function.comp_def, valuesAt_append]
    · have hbd : (d == p.1) = false := by simpa using hd
      have hbp : (p.1 == d) = false := by simpa using (Ne.symm hd)
      simp [Function.comp_def, valuesAt_append, hbd, hbp, hd]
  · have hmem : p.1 ∉ (groupedByDate pairs).map Prod.fst := by
      rw [hkeys]; exact fun hc => h (mem_firstDedup.mp hc)
    unfold addPair
    rw [if_neg hmem]
    simp only [groupedByDate]
    rw [datesOf_append, if_neg h, List.map_append, List.map_cons, List.map_nil]
    congr 1
    · apply List.map_congr_left
      intro d hd
      have hdm : d ∈ pairs.map Prod.fst := mem_firstDedup.mp hd
      have hbp : (p.1 == d) = false := by
        simp only [beq_eq_false_iff_ne, ne_eq]
        intro hc; exact h (hc ▸ hdm)
      simp [valuesAt_append, hbp]
    · simp [valuesAt_append, valuesAt_eq_nil_of_not_mem h]

theorem foldl_addPair_grouped (l : List (Nat × String)) :
    ∀ pairs, l.foldl addPair (groupedByDate pairs) = groupedByDate (pairs ++ l) := by
  induction l with
  | nil => intro pairs; simp
  | cons p l ih =>
      intro pairs
      rw [List.foldl_cons, addPair_grouped, ih (pairs ++ [p])]
      simp

theorem groupByDate_eq (pairs : List (Nat × String)) :
    groupByDate pairs = groupedByDate pairs := by
  have h := foldl_addPair_grouped pairs []
  have hnil : groupedByDate [] = [] := rfl
  rw [hnil] at h
  simpa [groupByDate] using h

/-! Membership in the grouped plan. -/

theorem mem_valuesAt {pairs : List (Nat × String)} {d : Nat} {t : String} :
    t ∈ valuesAt pairs d ↔ (d, t) ∈ pairs := by
  simp only [valuesAt, List.mem_map, List.mem_filter]
  constructor
  · rintro ⟨⟨pd, pt⟩, ⟨hmem, hfst⟩, rfl⟩
    have hpd : pd = d := by simpa using hfst
    subst hpd
    exact hmem
  · intro hm
    exact ⟨(d, t), ⟨hm, by simp⟩, rfl⟩

theorem groupedByDate_keys (pairs : List (Nat × String)) :
    (groupedByDate pairs).map Prod.fst = datesOf pairs := by
  simp [groupedByDate, List.map_map, Function.comp_def]

theorem mem_groupedByDate {pairs : List (Nat × String)} {b : Nat × List String}
    (hb : b ∈ groupedByDate pairs) :
    b.2 = valuesAt pairs b.1 ∧ b.1 ∈ datesOf pairs := by
  simp only [groupedByDate, List.mem_map] at hb
  rcases hb with ⟨d, hd, rfl⟩
  exact ⟨rfl, hd⟩

theorem groupedByDate_batch_exists {pairs : List (Nat × String)} {d : Nat} {t : String}
    (h : (d, t) ∈ pairs) : ∃ l, (d, l) ∈ groupedByDate pairs ∧ t ∈ l := by
  refine ⟨valuesAt pairs d, ?_, mem_valuesAt.mpr h⟩
  simp only [groupedByDate, List.mem_map]
  refine ⟨d, ?_, rfl⟩
  exact mem_firstDedup.mpr (List.mem_map.mpr ⟨(d, t), h, rfl⟩)

/-! Characterization of the `all_dates` list. -/

theorem mem_calc_entry {cal : Calendar} {ys now : Nat}
    {lastUpdate : String → Option Nat} {bd : Nat} {tp : String}
    {e : List (Nat × String)}
    (he : calc_entry cal ys now lastUpdate bd tp = some e) (d : Nat) (t : String) :
    ((d, t) ∈ e ↔ t = tp ∧ needsDownload cal ys now lastUpdate tp = true ∧
      d = startDate lastUpdate bd tp) := by
  cases hl : lastUpdate tp with
  | none =>
      simp only [calc_entry, hl] at he
      injection he with he
      subst he
      simp only [needsDownload, startDate, hl, List.mem_singleton, Prod.mk.injEq]
      constructor
      · rintro ⟨rfl, rfl⟩; exact ⟨rfl, trivial, rfl⟩
      · rintro ⟨rfl, -, rfl⟩; exact ⟨rfl, rfl⟩
  | some lu =>
      simp only [calc_entry, hl] at he
      cases ha : anything_to_download cal ys now lu with
      | none => simp [ha] at he
      | some b =>
          simp only [ha] at he
          injection he with he
          subst he
          simp only [needsDownload, startDate, hl, ha]
          cases b with
          | true =>
              rw [if_pos rfl]
              simp only [List.mem_singleton, Prod.mk.injEq, beq_self_eq_true]
              constructor
              · rintro ⟨rfl, rfl⟩; exact ⟨rfl, trivial, rfl⟩
              · rintro ⟨rfl, -, rfl⟩; exact ⟨rfl, rfl⟩
          | false =>
              simp

theorem mem_calc_all_dates {cal : Calendar} {ys now : Nat}
    {lastUpdate : String → Option Nat} {bd : Nat} {ts : List String}
    {ad : List (Nat × String)}
    (h : calc_all_dates cal ys now lastUpdate bd ts = some ad) (d : Nat) (t : String) :
    ((d, t) ∈ ad ↔ t ∈ ts ∧ needsDownload cal ys now lastUpdate t = true ∧
      d = startDate lastUpdate bd t) := by
  induction ts generalizing ad with
  | nil =>
      unfold calc_all_dates at h
      injection h with h; subst h; simp
  | cons tp ts ih =>
      unfold calc_all_dates at h
      cases he : calc_entry cal ys now lastUpdate bd tp with
      | none => rw [he] at h; exact absurd h (by simp)
      | some e =>
          rw [he] at h
          cases hr : calc_all_dates cal ys now lastUpdate bd ts with
          | none => rw [hr] at h; exact absurd h (by simp)
          | some r =>
              rw [hr] at h
              injection h with h; subst h
              rw [List.mem_append, mem_calc_entry he d t, ih hr]
              constructor
              · rintro (⟨rfl, hn, hd⟩ | ⟨ht, hn, hd⟩)
                · exact ⟨by simp, hn, hd⟩
                · exact ⟨by simp [ht], hn, hd⟩
              · rintro ⟨ht, hn, hd⟩
                rcases List.mem_cons.mp ht with rfl | ht2
                · exact Or.inl ⟨rfl, hn, hd⟩
                · exact Or.inr ⟨ht2, hn, hd⟩

theorem calc_all_dates_isSome {cal : Calendar} {ys now : Nat}
    {lastUpdate : String → Option Nat} {bd : Nat} {c : Nat}
    (hl : last_trading_day cal ys now = some c) (ts : List String) :
    ∃ ad, calc_all_dates cal ys now lastUpdate bd ts = some ad := by
  induction ts with
  | nil => exact ⟨[], rfl⟩
  | cons t ts ih =>
      rcases ih with ⟨r, hr⟩
      have he : ∃ e, calc_entry cal ys now lastUpdate bd t = some e := by
        unfold calc_entry
        cases hlu : lastUpdate t with
        | none => exact ⟨_, rfl⟩
        | some lu =>
            unfold anything_to_download
            rw [hl]
            exact ⟨_, rfl⟩
      rcases he with ⟨e, he⟩
      refine ⟨e ++ r, ?_⟩
      unfold calc_all_dates
      rw [he, hr]

theorem calculate_downloads_some {cal : Calendar} {ys now : Nat}
    {lastUpdate : String → Option Nat} {bd : Nat} {ts : List String}
    {plan : List (Nat × List String)}
    (h : calculate_downloads cal ys now lastUpdate bd ts = some plan) :
    ∃ ad, calc_all_dates cal ys now lastUpdate bd ts = some ad ∧
      plan = groupedByDate ad := by
  unfold calculate_downloads at h
  cases had : calc_all_dates cal ys now lastUpdate bd ts with
  | none => rw [had] at h; exact absurd h (by simp)
  | some ad =>
      rw [had] at h
      injection h with h
      exact ⟨ad, rfl, by rw [← h, groupByDate_eq]⟩

/-- Any batch of a successful plan that lists ticker `t` has the date the
planner derived for `t`, and `t` is then a ticker the planner marked as
needing data. -/
theorem batch_of_plan {cal : Calendar} {ys now : Nat}
    {lastUpdate : String → Option Nat} {bd : Nat} {ts : List String}
    {plan : List (Nat × List String)} {b : Nat × List String} {t : String}
    (h : calculate_downloads cal ys now lastUpdate bd ts = some plan)
    (hb : b ∈ plan) (ht : t ∈ b.2) :
    t ∈ ts ∧ needsDownload cal ys now lastUpdate t = true ∧
      b.1 = startDate lastUpdate bd t := by
  rcases calculate_downloads_some h with ⟨ad, had, rfl⟩
  rcases mem_groupedByDate hb with ⟨hval, -⟩
  rw [hval] at ht
  have := (mem_calc_all_dates had b.1 t).mp (mem_valuesAt.mp ht)
  exact ⟨this.1, this.2.1, this.2.2⟩

/-- A ticker the planner marked as needing data lands in a batch carrying
its derived start date. -/
theorem plan_has_batch {cal : Calendar} {ys now : Nat}
    {lastUpdate : String → Option Nat} {bd : Nat} {ts : List String}
    {plan : List (Nat × List String)} {t : String}
    (h : calculate_downloads cal ys now lastUpdate bd ts = some plan)
    (ht : t ∈ ts) (hn : needsDownload cal ys now lastUpdate t = true) :
    ∃ l, (startDate lastUpdate bd t, l) ∈ plan ∧ t ∈ l := by
  rcases calculate_downloads_some h with ⟨ad, had, rfl⟩
  have hmem : (startDate lastUpdate bd t, t) ∈ ad :=
    (mem_calc_all_dates had _ t).mpr ⟨ht, hn, rfl⟩
  exact groupedByDate_batch_exists hmem


/-! Arithmetic and ordering helpers. -/

theorem day_le_div_of_mul_lt {s now : Nat} (h : s * 1440 < now) : s ≤ now / 1440 := by
  rw [Nat.le_div_iff_mul_le (by omega)]
  omega

theorem mul_1440_le_of_le_div {d now : Nat} (h : d ≤ now / 1440) : d * 1440 ≤ now :=
  le_trans (Nat.mul_le_mul_right _ h) (Nat.div_mul_le_self now 1440)

theorem nat_min?_eq_some_iff {l : List Nat} {a : Nat} :
    l.min? = some a ↔ a ∈ l ∧ ∀ b ∈ l, a ≤ b :=
  List.min?_eq_some_iff (fun x => le_refl x) (fun x y => min_choice x y)
    (fun _ _ _ => le_min_iff)

theorem head_min_of_pairwise_lt {l : List Nat} {a : Nat}
    (hp : l.Pairwise (· < ·)) (ha : l.head? = some a) : ∀ b ∈ l, a ≤ b := by
  cases l with
  | nil => simp at ha
  | cons x xs =>
      injection ha with ha
      subst ha
      intro b hb
      rcases List.mem_cons.mp hb with rfl | hb2
      · exact le_refl b
      · exact le_of_lt ((List.pairwise_cons.mp hp).1 b hb2)

theorem getLast_max_of_pairwise_lt {l : List Nat} {a : Nat}
    (hp : l.Pairwise (· < ·)) (ha : l.getLast? = some a) : ∀ b ∈ l, b ≤ a := by
  rw [List.getLast?_eq_head?_reverse] at ha
  have hp2 : l.reverse.Pairwise (fun x y => y < x) := List.pairwise_reverse.mpr hp
  cases hl : l.reverse with
  | nil => rw [hl] at ha; simp at ha
  | cons x xs =>
      rw [hl] at ha
      injection ha with ha
      subst ha
      intro b hb
      have hbr : b ∈ l.reverse := List.mem_reverse.mpr hb
      rw [hl] at hbr hp2
      rcases List.mem_cons.mp hbr with rfl | hb2
      · exact le_refl _
      · exact le_of_lt ((List.pairwise_cons.mp hp2).1 b hb2)

/-- Core property of `last_trading_day_date` for a strictly increasing
calendar with close times inside the day: whenever it returns a session,
that session is the latest one, at or after the year start, whose close is
strictly before `now`. -/
theorem last_trading_day_spec (cal : Calendar) (ys now lastDay : Nat)
    (hsort : cal.sessions.Pairwise (· < ·))
    (hofs : ∀ d, cal.closeOfs d < 1440)
    (h : last_trading_day_date cal ys now = some lastDay) :
    lastDay ∈ cal.sessions ∧ ys ≤ lastDay ∧ cal.close lastDay < now ∧
      ∀ s ∈ cal.sessions, ys ≤ s → cal.close s < now → s ≤ lastDay := by
  simp only [last_trading_day_date] at h
  have hVmem : ∀ s, s ∈ cal.sessions.filter
      (fun d => decide (ys ≤ d) && decide (d ≤ now / 1440)) ↔
      s ∈ cal.sessions ∧ ys ≤ s ∧ s ≤ now / 1440 := by
    intro s
    simp [List.mem_filter, and_assoc]
  have hVin : ∀ s ∈ cal.sessions, ys ≤ s → cal.close s < now →
      s ∈ cal.sessions.filter (fun d => decide (ys ≤ d) && decide (d ≤ now / 1440)) := by
    intro s hs hys hc
    refine (hVmem s).mpr ⟨hs, hys, ?_⟩
    have hlt : s * 1440 < now := by
      have := Nat.le_add_right (s * 1440) (cal.closeOfs s)
      unfold Calendar.close at hc
      omega
    exact day_le_div_of_mul_lt hlt
  cases hrev : (cal.sessions.filter
      (fun d => decide (ys ≤ d) && decide (d ≤ now / 1440))).reverse with
  | nil => rw [hrev] at h; exact absurd h (by simp)
  | cons L rest =>
      rw [hrev] at h
      replace h : (if cal.close L < now then some L else rest.head?) = some lastDay := h
      have hPW : (L :: rest).Pairwise (fun a b => b < a) := by
        rw [← hrev]
        exact List.pairwise_reverse.mpr (hsort.filter _)
      have hgt : ∀ b ∈ rest, b < L := (List.pairwise_cons.mp hPW).1
      have hLV : L ∈ cal.sessions.filter
          (fun d => decide (ys ≤ d) && decide (d ≤ now / 1440)) := by
        rw [← List.mem_reverse, hrev]; exact List.mem_cons_self _ _
      have hLfacts := (hVmem L).mp hLV
      by_cases hc : cal.close L < now
      · rw [if_pos hc] at h
        injection h with h
        subst h
        refine ⟨hLfacts.1, hLfacts.2.1, hc, ?_⟩
        intro s hs hys hcs
        have hsV := hVin s hs hys hcs
        have hsm : s ∈ L :: rest := by rw [← hrev, List.mem_reverse]; exact hsV
        rcases List.mem_cons.mp hsm with rfl | h2
        · exact le_refl _
        · exact le_of_lt (hgt s h2)
      · rw [if_neg hc] at h
        cases rest with
        | nil => exact absurd h (by simp)
        | cons P rest2 =>
            simp only [List.head?_cons] at h
            injection h with h
            subst h
            have hPV : P ∈ cal.sessions.filter
                (fun d => decide (ys ≤ d) && decide (d ≤ now / 1440)) := by
              rw [← List.mem_reverse, hrev]
              exact List.mem_cons_of_mem _ (List.mem_cons_self _ _)
            have hPfacts := (hVmem P).mp hPV
            have hPL : P < L := hgt P (List.mem_cons_self _ _)
            have hLdiv : L ≤ now / 1440 := hLfacts.2.2
            have hclP : cal.close P < now := by
              have h1 : L * 1440 ≤ now := mul_1440_le_of_le_div hLdiv
              have h2 : cal.closeOfs P < 1440 := hofs P
              unfold Calendar.close
              omega
            refine ⟨hPfacts.1, hPfacts.2.1, hclP, ?_⟩
            intro s hs hys hcs
            have hsV := hVin s hs hys hcs
            have hsm : s ∈ L :: P :: rest2 := by
              rw [← hrev, List.mem_reverse]; exact hsV
            rcases List.mem_cons.mp hsm with rfl | h2
            · exact absurd hcs hc
            · rcases List.mem_cons.mp h2 with rfl | h3
              · exact le_refl _
              · have hPW2 : (P :: rest2).Pairwise (fun a b => b < a) :=
                  (List.pairwise_cons.mp hPW).2
                exact le_of_lt ((List.pairwise_cons.mp hPW2).1 s h3)


/-! Claim C2. -/

/-- C2 as stated is refuted when `now` equals the close of the most recent
session: at `now = 7020`, the exact close of session 4, the most recent
session with close at or before `now` is session 4 itself, yet
`last_trading_day` picks session 3 — the source compares with a strict
`utcnow() > market_close` and falls back to the previous valid day at
equality. -/
theorem last_trading_day_at_close_cex :
    last_trading_day_date exCal 0 7020 = some 3 ∧
      4 ∈ exCal.sessions ∧ exCal.close 4 ≤ 7020 ∧ ¬(4 ≤ 3) :=
  ⟨rfl, by decide, by decide, by decide⟩

/-- C2 (amended): for a strictly increasing calendar whose close times lie
inside the day, `last_trading_day` returns the most recent session whose
market-close time is strictly before `now`; when `now` equals the close
exactly, the session before it is returned. -/
theorem last_trading_day_most_recent_before (cal : Calendar) (ys now lastDay : Nat)
    (hsort : cal.sessions.Pairwise (· < ·))
    (hofs : ∀ d, cal.closeOfs d < 1440)
    (h : last_trading_day_date cal ys now = some lastDay) :
    (last_trading_day cal ys now = some (cal.close lastDay) ∧
      lastDay ∈ cal.sessions ∧ ys ≤ lastDay ∧ cal.close lastDay < now ∧
      ∀ s ∈ cal.sessions, ys ≤ s → cal.close s < now → s ≤ lastDay) := by
  have hmain := last_trading_day_spec cal ys now lastDay hsort hofs h
  refine ⟨?_, hmain⟩
  unfold last_trading_day
  rw [h]
  rfl

/-- Witness for the amended C2, at `now = 7080` (an hour past the close of
session 4 of the example week). -/
theorem last_trading_day_most_recent_before_instance :
    (last_trading_day exCal 0 7080 = some (exCal.close 4) ∧
      4 ∈ exCal.sessions ∧ 0 ≤ 4 ∧ exCal.close 4 < 7080 ∧
      ∀ s ∈ exCal.sessions, 0 ≤ s → exCal.close s < 7080 → s ≤ 4) :=
  last_trading_day_most_recent_before exCal 0 7080 4 (by decide)
    (fun _ => (by decide : (1260 : Nat) < 1440)) rfl

/-! Claim C1. -/

theorem nxt_close_compare {nxt lastDay ofs : Nat} (h0 : 0 < ofs) (h1 : ofs < 1440) :
    (nxt * 1440 < lastDay * 1440 + ofs) ↔ nxt ≤ lastDay := by
  omega

/-- C1 as stated is refuted at the boundary `nextSession(LastKnownDate) =
lastCompletedSession(now)`: ticker B was last stored on day 3, the next
session after day 3 is day 4, the last completed session at `now = 7080`
is also day 4, so the claim requires B to be excluded (`nextSession ≥
lastCompletedSession`), but the plan contains B with start date 3 — the
source compares the next session's midnight against the close timestamp,
and midnight of day 4 is before the close of day 4. -/
theorem calculate_downloads_boundary_cex :
    next_trading_day exCal 3 = some 4 ∧
      last_trading_day_date exCal 0 7080 = some 4 ∧ ¬(4 < 4) ∧
      calculate_downloads exCal 0 7080 exLU 0 ["B"] = some [(3, ["B"])] :=
  ⟨rfl, rfl, by decide, rfl⟩

/-- C1 (amended): for close times strictly inside the day, an instrument
with a stored last date `lu` whose next session exists is planned with
start date `lu` exactly when `nextSession(lu) ≤ lastCompletedSession(now)`
as sessions (the code compares midnight of the next session against the
close of the last completed session, so equality of the two sessions still
triggers a download); it is excluded exactly when `nextSession(lu)` is
strictly later than the last completed session. -/
theorem calculate_downloads_start_iff (cal : Calendar) (ys now : Nat)
    (lastUpdate : String → Option Nat) (bd : Nat) (tickers : List String)
    (plan : List (Nat × List String)) (t : String) (lu nxt lastDay : Nat)
    (hofs : ∀ d, 0 < cal.closeOfs d ∧ cal.closeOfs d < 1440)
    (hld : last_trading_day_date cal ys now = some lastDay)
    (hnxt : next_trading_day cal lu = some nxt)
    (hlu : lastUpdate t = some lu)
    (ht : t ∈ tickers)
    (hplan : calculate_downloads cal ys now lastUpdate bd tickers = some plan) :
    ((∃ b ∈ plan, t ∈ b.2) ↔ nxt ≤ lastDay) ∧
      ∀ b ∈ plan, t ∈ b.2 → b.1 = lu := by
  have hlast : last_trading_day cal ys now = some (cal.close lastDay) := by
    unfold last_trading_day
    rw [hld]
    rfl
  have hatd : anything_to_download cal ys now lu
      = some (decide (nxt * 1440 < cal.close lastDay)) := by
    simp only [anything_to_download, hlast, hnxt, Option.map_some']
  have hneeds : needsDownload cal ys now lastUpdate t
      = decide (nxt * 1440 < cal.close lastDay) := by
    simp only [needsDownload, hlu, hatd]
    cases hP : decide (nxt * 1440 < cal.close lastDay) <;> rfl
  have hstart : startDate lastUpdate bd t = lu := by
    simp only [startDate, hlu]
  have hcmp : (nxt * 1440 < cal.close lastDay) ↔ nxt ≤ lastDay := by
    have hb := hofs lastDay
    unfold Calendar.close
    omega
  constructor
  · constructor
    · rintro ⟨b, hb, htb⟩
      have h3 := batch_of_plan hplan hb htb
      rw [hneeds] at h3
      exact hcmp.mp (of_decide_eq_true h3.2.1)
    · intro hle
      have hn : needsDownload cal ys now lastUpdate t = true := by
        rw [hneeds]
        exact decide_eq_true (hcmp.mpr hle)
      rcases plan_has_batch hplan ht hn with ⟨l, hbl, htl⟩
      exact ⟨(startDate lastUpdate bd t, l), hbl, htl⟩
  · intro b hb htb
    have h3 := batch_of_plan hplan hb htb
    rw [h3.2.2, hstart]

/-- Witness for the amended C1 at the boundary instance of the
counterexample: B is planned because day 4 (next session) is at most
day 4 (last completed session). -/
theorem calculate_downloads_start_iff_instance :
    ((∃ b ∈ [((3 : Nat), ["B"])], "B" ∈ b.2) ↔ 4 ≤ 4) ∧
      ∀ b ∈ [((3 : Nat), ["B"])], "B" ∈ b.2 → b.1 = 3 :=
  calculate_downloads_start_iff exCal 0 7080 exLU 0 ["B"] [(3, ["B"])]
    ("B") 3 4 4 (fun _ => ⟨(by decide : (0 : Nat) < 1260), (by decide : (1260 : Nat) < 1440)⟩)
    rfl rfl rfl (by decide) rfl

/-! Claim C3. -/

/-- C3 as stated is refuted: with ticker X last stored on day 100, the
10-business-day window after day 100 holds no `exCal` session, yet
`next_trading_day` does not fail with a declared error — it returns the
missing value `NaT` (`none`) — and `calculate_downloads` does not halt: it
completes normally with a plan that silently omits X (`NaT <` anything is
`False`). -/
theorem next_trading_day_no_session_cex :
    next_trading_day exCal 100 = none ∧
      calculate_downloads exCal 0 7080 exLUX 0 ["X"] = some [] :=
  ⟨rfl, rfl⟩

/-- C3 (amended): when no session exists in the bounded forward window
after a stored last date, `next_trading_day` returns the missing value
`NaT` (`none`) rather than raising; the `NaT` comparison inside
`calculate_downloads` is false, so planning completes normally and the
affected instrument is silently excluded from every batch. -/
theorem next_trading_day_none_skips (cal : Calendar) (ys now : Nat)
    (lastUpdate : String → Option Nat) (bd : Nat) (tickers : List String)
    (t : String) (lu c : Nat)
    (hlast : last_trading_day cal ys now = some c)
    (hnxt : next_trading_day cal lu = none)
    (hlu : lastUpdate t = some lu) :
    ∃ plan, calculate_downloads cal ys now lastUpdate bd tickers = some plan ∧
      ∀ b ∈ plan, t ∉ b.2 := by
  rcases @calc_all_dates_isSome cal ys now lastUpdate bd c hlast tickers with ⟨ad, had⟩
  refine ⟨groupedByDate ad, ?_, ?_⟩
  · unfold calculate_downloads
    rw [had, ← groupByDate_eq]
    rfl
  · intro b hb htb
    rcases mem_groupedByDate hb with ⟨hval, -⟩
    rw [hval] at htb
    have h3 := (mem_calc_all_dates had b.1 t).mp (mem_valuesAt.mp htb)
    have hatd : anything_to_download cal ys now lu = some false := by
      simp only [anything_to_download, hlast, hnxt, Option.map_some']
    have hneeds : needsDownload cal ys now lastUpdate t = false := by
      simp only [needsDownload, hlu, hatd]
      rfl
    rcases h3 with ⟨-, hn, -⟩
    rw [hneeds] at hn
    exact Bool.noConfusion hn

/-- Witness for the amended C3 at the concrete instance of the
counterexample. -/
theorem next_trading_day_none_skips_instance :
    ∃ plan, calculate_downloads exCal 0 7080 exLUX 0 ["X"] = some plan ∧
      ∀ b ∈ plan, "X" ∉ b.2 :=
  next_trading_day_none_skips exCal 0 7080 exLUX 0 ["X"] ("X") 100 7020
    rfl rfl rfl

/-! Claim C5. -/

/-- C5: an instrument with no record in the store is planned into a batch
whose start date is the configured epoch date `BEGINNING_DATE`. -/
theorem calculate_downloads_backfill (cal : Calendar) (ys now : Nat)
    (lastUpdate : String → Option Nat) (bd : Nat) (tickers : List String)
    (plan : List (Nat × List String)) (t : String)
    (hlu : lastUpdate t = none) (ht : t ∈ tickers)
    (hplan : calculate_downloads cal ys now lastUpdate bd tickers = some plan) :
    ∃ b ∈ plan, b.1 = bd ∧ t ∈ b.2 := by
  have hn : needsDownload cal ys now lastUpdate t = true := by
    simp [needsDownload, hlu]
  have hs : startDate lastUpdate bd t = bd := by
    simp [startDate, hlu]
  rcases plan_has_batch hplan ht hn with ⟨l, hbl, htl⟩
  rw [hs] at hbl
  exact ⟨(bd, l), hbl, rfl, htl⟩

/-- Witness for C5: a ticker with no record lands in the epoch batch. -/
theorem calculate_downloads_backfill_instance :
    ∃ b ∈ [((0 : Nat), ["N"])], b.1 = 0 ∧ "N" ∈ b.2 :=
  calculate_downloads_backfill exCal 0 7080 (fun _ => none) 0 ["N"]
    [(0, ["N"])] ("N") rfl (by decide) rfl

/-! Claim C7. -/

/-- C7: planning is deterministic and idempotent — the same store state,
ticker list and calendar inputs yield the identical plan — and the plan's
batches are keyed by the distinct start dates in insertion order of first
encounter over `all_dates` (`firstDedup`), hence without duplicates and as
an order-preserving sublist of the encountered dates. -/
theorem calculate_downloads_idempotent (cal : Calendar) (ys now : Nat)
    (lastUpdate : String → Option Nat) (bd : Nat) (tickers : List String) :
    calculate_downloads cal ys now lastUpdate bd tickers =
      calculate_downloads cal ys now lastUpdate bd tickers ∧
    ∀ ad plan, calc_all_dates cal ys now lastUpdate bd tickers = some ad →
      calculate_downloads cal ys now lastUpdate bd tickers = some plan →
      (plan.map Prod.fst = firstDedup (ad.map Prod.fst) ∧
        (plan.map Prod.fst).Nodup ∧
        (plan.map Prod.fst).Sublist (ad.map Prod.fst)) := by
  refine ⟨rfl, ?_⟩
  intro ad plan had hplan
  rcases calculate_downloads_some hplan with ⟨ad2, had2, rfl⟩
  rw [had] at had2
  injection had2 with had2
  subst had2
  refine ⟨groupedByDate_keys ad, ?_, ?_⟩
  · rw [groupedByDate_keys]
    exact nodup_firstDedup _
  · rw [groupedByDate_keys]
    exact firstDedup_sublist _

/-- Witness for C7 on a two-ticker instance whose `all_dates` list repeats
the date of day 3. -/
theorem calculate_downloads_idempotent_instance :
    [((3 : Nat), ["A", "C"])].map Prod.fst =
        firstDedup ([((3 : Nat), "A"), (3, "C")].map Prod.fst) ∧
      ([((3 : Nat), ["A", "C"])].map Prod.fst).Nodup ∧
      ([((3 : Nat), ["A", "C"])].map Prod.fst).Sublist
        ([((3 : Nat), "A"), (3, "C")].map Prod.fst) :=
  (calculate_downloads_idempotent exCal 0 7080 exLUP 0 ["A", "C"]).2
    [(3, "A"), (3, "C")] [(3, ["A", "C"])] rfl rfl


/-! Claim C4. -/

/-- C4: the plan is a partition of the instruments needing data, grouped by
start date — a ticker needing data lies in exactly one batch, a ticker
needing none lies in no batch, two tickers with the same required start
date share a batch, two tickers with different start dates never share a
batch, and the plan is empty exactly when no ticker needs data. -/
theorem calculate_downloads_partition (cal : Calendar) (ys now : Nat)
    (lastUpdate : String → Option Nat) (bd : Nat) (tickers : List String)
    (plan : List (Nat × List String))
    (hplan : calculate_downloads cal ys now lastUpdate bd tickers = some plan) :
    (∀ t ∈ tickers, needsDownload cal ys now lastUpdate t = true →
        plan.countP (fun b => decide (t ∈ b.2)) = 1) ∧
    (∀ t ∈ tickers, needsDownload cal ys now lastUpdate t = false →
        ∀ b ∈ plan, t ∉ b.2) ∧
    (∀ t1 ∈ tickers, ∀ t2 ∈ tickers,
        needsDownload cal ys now lastUpdate t2 = true →
        startDate lastUpdate bd t1 = startDate lastUpdate bd t2 →
        ∀ b ∈ plan, t1 ∈ b.2 → t2 ∈ b.2) ∧
    (∀ t1 t2 : String, startDate lastUpdate bd t1 ≠ startDate lastUpdate bd t2 →
        ∀ b ∈ plan, t1 ∈ b.2 → t2 ∉ b.2) ∧
    (plan = [] ↔ ∀ t ∈ tickers, needsDownload cal ys now lastUpdate t = false) := by
  rcases calculate_downloads_some hplan with ⟨ad, had, rfl⟩
  have hmem : ∀ d t, ((d, t) ∈ ad ↔ t ∈ tickers ∧
      needsDownload cal ys now lastUpdate t = true ∧
      d = startDate lastUpdate bd t) := fun d t => mem_calc_all_dates had d t
  refine ⟨?_, ?_, ?_, ?_, ?_⟩
  · intro t ht hn
    have hmemb : ∀ d, t ∈ valuesAt ad d ↔ d = startDate lastUpdate bd t := by
      intro d
      rw [mem_valuesAt, hmem d t]
      constructor
      · rintro ⟨-, -, hd⟩; exact hd
      · intro hd; exact ⟨ht, hn, hd⟩
    simp only [groupedByDate]
    rw [List.countP_map]
    have hcg : List.countP ((fun b : Nat × List String => decide (t ∈ b.2)) ∘
        (fun d => (d, valuesAt ad d))) (datesOf ad)
        = List.countP (fun d => d == startDate lastUpdate bd t) (datesOf ad) := by
      apply List.countP_congr
      intro d _
      simp only [Function.comp_apply, decide_eq_true_eq, beq_iff_eq]
      exact hmemb d
    rw [hcg, ← List.count_eq_countP]
    apply List.count_eq_one_of_mem (nodup_firstDedup _)
    have hpair : (startDate lastUpdate bd t, t) ∈ ad := (hmem _ t).mpr ⟨ht, hn, rfl⟩
    exact mem_firstDedup.mpr (List.mem_map.mpr ⟨_, hpair, rfl⟩)
  · intro t ht hn b hb htb
    rcases mem_groupedByDate hb with ⟨hval, -⟩
    rw [hval] at htb
    have h3 := (hmem b.1 t).mp (mem_valuesAt.mp htb)
    rw [hn] at h3
    exact Bool.noConfusion h3.2.1
  · intro t1 ht1 t2 ht2 hn2 heq b hb htb1
    rcases mem_groupedByDate hb with ⟨hval, -⟩
    rw [hval] at htb1 ⊢
    have h3 := (hmem b.1 t1).mp (mem_valuesAt.mp htb1)
    rw [mem_valuesAt, hmem b.1 t2]
    refine ⟨ht2, hn2, ?_⟩
    rw [h3.2.2, heq]
  · intro t1 t2 hne b hb htb1 htb2
    rcases mem_groupedByDate hb with ⟨hval, -⟩
    rw [hval] at htb1 htb2
    have h1 := (hmem b.1 t1).mp (mem_valuesAt.mp htb1)
    have h2 := (hmem b.1 t2).mp (mem_valuesAt.mp htb2)
    exact hne (h1.2.2.symm.trans h2.2.2)
  · constructor
    · intro hpl t ht
      cases hn : needsDownload cal ys now lastUpdate t with
      | false => rfl
      | true =>
          exfalso
          have hpair : (startDate lastUpdate bd t, t) ∈ ad :=
            (hmem _ t).mpr ⟨ht, hn, rfl⟩
          rcases groupedByDate_batch_exists hpair with ⟨l, hbl, -⟩
          rw [hpl] at hbl
          simp at hbl
    · intro hall
      have had_nil : ad = [] := by
        rw [List.eq_nil_iff_forall_not_mem]
        rintro ⟨d, t⟩ hm
        have h3 := (hmem d t).mp hm
        exact Bool.noConfusion ((hall t h3.1).symm.trans h3.2.1)
      rw [had_nil]
      rfl

/-- Witness for C4: tickers A and C share start day 3, U needs nothing
(stored at the last completed session), N gets the epoch batch. -/
theorem calculate_downloads_partition_instance :
    (∀ t ∈ ["A", "C", "U", "N"], needsDownload exCal 0 7080 exLUP t = true →
        [((3 : Nat), ["A", "C"]), (0, ["N"])].countP (fun b => decide (t ∈ b.2)) = 1) ∧
    (∀ t ∈ ["A", "C", "U", "N"], needsDownload exCal 0 7080 exLUP t = false →
        ∀ b ∈ [((3 : Nat), ["A", "C"]), (0, ["N"])], t ∉ b.2) ∧
    (∀ t1 ∈ ["A", "C", "U", "N"], ∀ t2 ∈ ["A", "C", "U", "N"],
        needsDownload exCal 0 7080 exLUP t2 = true →
        startDate exLUP 0 t1 = startDate exLUP 0 t2 →
        ∀ b ∈ [((3 : Nat), ["A", "C"]), (0, ["N"])], t1 ∈ b.2 → t2 ∈ b.2) ∧
    (∀ t1 t2 : String, startDate exLUP 0 t1 ≠ startDate exLUP 0 t2 →
        ∀ b ∈ [((3 : Nat), ["A", "C"]), (0, ["N"])], t1 ∈ b.2 → t2 ∉ b.2) ∧
    ([((3 : Nat), ["A", "C"]), (0, ["N"])] = ([] : List (Nat × List String)) ↔
        ∀ t ∈ ["A", "C", "U", "N"], needsDownload exCal 0 7080 exLUP t = false) :=
  calculate_downloads_partition exCal 0 7080 exLUP 0 ["A", "C", "U", "N"]
    [(3, ["A", "C"]), (0, ["N"])] rfl


/-! Claim C6. -/

theorem mem_futureDates {d s : Nat} :
    s ∈ ((List.range 14).map (fun i => d + i)).filter isBusinessDay ↔
      (isBusinessDay s = true ∧ d ≤ s ∧ s < d + 14) := by
  simp only [List.mem_filter, List.mem_map, List.mem_range]
  constructor
  · rintro ⟨⟨i, hi, rfl⟩, hb⟩
    exact ⟨hb, Nat.le_add_right _ _, by omega⟩
  · rintro ⟨hb, hle, hlt⟩
    exact ⟨⟨s - d, by omega, by omega⟩, hb⟩

theorem pairwise_futureDates (d : Nat) :
    (((List.range 14).map (fun i => d + i)).filter isBusinessDay).Pairwise (· < ·) :=
  ((List.pairwise_lt_range 14).map _ (fun _ _ h => by omega)).filter _

theorem futureDates_ne_nil (d : Nat) :
    ((List.range 14).map (fun i => d + i)).filter isBusinessDay ≠ [] := by
  intro hnil
  by_cases hd : d % 7 < 5
  · have hm : d ∈ ((List.range 14).map (fun i => d + i)).filter isBusinessDay :=
      mem_futureDates.mpr ⟨by simp [isBusinessDay, hd], le_refl d, by omega⟩
    rw [hnil] at hm
    simp at hm
  · have h7 : (d + 7 - d % 7) % 7 = 0 := by omega
    have hm : (d + 7 - d % 7) ∈
        ((List.range 14).map (fun i => d + i)).filter isBusinessDay := by
      refine mem_futureDates.mpr ⟨?_, by omega, by omega⟩
      simp only [isBusinessDay, decide_eq_true_eq]
      omega
    rw [hnil] at hm
    simp at hm

theorem getLast?_mem_of_eq {α : Type} {l : List α} {a : α}
    (h : l.getLast? = some a) : a ∈ l := by
  rw [List.getLast?_eq_head?_reverse] at h
  have hrev : a ∈ l.reverse := by
    cases hl : l.reverse with
    | nil => rw [hl] at h; simp at h
    | cons x xs =>
        rw [hl] at h
        injection h with h
        subst h
        exact List.mem_cons_self _ _
  exact List.mem_reverse.mp hrev

theorem exists_getLast?_of_ne_nil {α : Type} {l : List α} (h : l ≠ []) :
    ∃ a, l.getLast? = some a :=
  ⟨l.getLast h, List.getLast?_eq_getLast l h⟩

/-- C6: over a calendar whose sessions are business days, whenever some
session lies strictly after `afterDate` inside the scanned forward window,
`next_trading_day` returns the earliest trading session strictly after
`afterDate` — the minimum valid session greater than it. -/
theorem next_trading_day_earliest (cal : Calendar) (d : Nat)
    (hweek : ∀ s ∈ cal.sessions, isBusinessDay s = true)
    (hex : ∃ s ∈ cal.sessions, d < s ∧ s < d + 14) :
    ∃ nxt, next_trading_day cal d = some nxt ∧ nxt ∈ cal.sessions ∧ d < nxt ∧
      ∀ s ∈ cal.sessions, d < s → nxt ≤ s := by
  set F := ((List.range 14).map (fun i => d + i)).filter isBusinessDay with hF
  rcases List.exists_cons_of_ne_nil (futureDates_ne_nil d) with ⟨lo, F2, hcons⟩
  have hhead : F.head? = some lo := by rw [hF, hcons]; rfl
  rcases exists_getLast?_of_ne_nil (futureDates_ne_nil d) with ⟨hi, hlast⟩
  have hlastF : F.getLast? = some hi := by rw [hF]; exact hlast
  have hlo_min : ∀ b ∈ F, lo ≤ b :=
    head_min_of_pairwise_lt (hF ▸ pairwise_futureDates d) hhead
  have hhi_max : ∀ b ∈ F, b ≤ hi :=
    getLast_max_of_pairwise_lt (hF ▸ pairwise_futureDates d) hlastF
  have hhi_mem : hi ∈ F := getLast?_mem_of_eq hlastF
  have hnext : next_trading_day cal d =
      ((cal.sessions.filter (fun s => decide (lo ≤ s) && decide (s ≤ hi))).filter
        (fun s => decide (d < s))).min? := by
    simp only [next_trading_day]
    rw [← hF, hhead, hlastF]
  rcases hex with ⟨s0, hs0m, hs0d, hs0w⟩
  have hs0F : s0 ∈ F := by
    rw [hF]
    exact mem_futureDates.mpr ⟨hweek s0 hs0m, by omega, hs0w⟩
  have hs0W : s0 ∈ (cal.sessions.filter
      (fun s => decide (lo ≤ s) && decide (s ≤ hi))).filter
      (fun s => decide (d < s)) := by
    refine List.mem_filter.mpr ⟨List.mem_filter.mpr ⟨hs0m, ?_⟩, by simpa using hs0d⟩
    have h1 : lo ≤ s0 := hlo_min s0 hs0F
    have h2 : s0 ≤ hi := hhi_max s0 hs0F
    simp [h1, h2]
  have hsome : ∃ nxt, ((cal.sessions.filter
      (fun s => decide (lo ≤ s) && decide (s ≤ hi))).filter
      (fun s => decide (d < s))).min? = some nxt := by
    cases hm : ((cal.sessions.filter
        (fun s => decide (lo ≤ s) && decide (s ≤ hi))).filter
        (fun s => decide (d < s))).min? with
    | some v => exact ⟨v, rfl⟩
    | none =>
        rw [List.min?_eq_none_iff] at hm
        rw [hm] at hs0W
        simp at hs0W
  rcases hsome with ⟨nxt, hmin⟩
  have hprops := nat_min?_eq_some_iff.mp hmin
  have hnxt_mem : nxt ∈ cal.sessions ∧ lo ≤ nxt ∧ nxt ≤ hi ∧ d < nxt := by
    rcases List.mem_filter.mp hprops.1 with ⟨h1, h2⟩
    rcases List.mem_filter.mp h1 with ⟨h3, h4⟩
    rw [Bool.and_eq_true] at h4
    refine ⟨h3, by simpa using h4.1, by simpa using h4.2, by simpa using h2⟩
  refine ⟨nxt, by rw [hnext, hmin], hnxt_mem.1, hnxt_mem.2.2.2, ?_⟩
  intro s hs hds
  by_cases hsw : s ≤ hi
  · have hsF : s ∈ F := by
      have hhiF := hhi_mem
      rw [hF] at hhiF ⊢
      have hhi14 := (mem_futureDates.mp hhiF).2.2
      exact mem_futureDates.mpr ⟨hweek s hs, by omega, by omega⟩
    have hsW : s ∈ (cal.sessions.filter
        (fun w => decide (lo ≤ w) && decide (w ≤ hi))).filter
        (fun w => decide (d < w)) := by
      refine List.mem_filter.mpr ⟨List.mem_filter.mpr ⟨hs, ?_⟩, by simpa using hds⟩
      have h1 : lo ≤ s := hlo_min s hsF
      simp [h1, hsw]
    exact hprops.2 s hsW
  · push_neg at hsw
    exact le_trans hnxt_mem.2.2.1 (le_of_lt hsw)

/-- Witness for C6: the earliest session of the example week after day 1 is
day 2. -/
theorem next_trading_day_earliest_instance :
    ∃ nxt, next_trading_day exCal 1 = some nxt ∧ nxt ∈ exCal.sessions ∧ 1 < nxt ∧
      ∀ s ∈ exCal.sessions, 1 < s → nxt ≤ s :=
  next_trading_day_earliest exCal 1 (by decide) ⟨2, by decide, by decide, by decide⟩


/-! Claim C8. -/

/-- C8: normalizing a single-instrument response and a multi-instrument
response that carry the same dates and, per column (`Open`, `High`, `Low`,
`Adj Close`), the same values for that one instrument produces the
identical list (hence set) of records. -/
theorem data_download_roundtrip (t : String) (s : SingleResp) (m : MultiResp)
    (hdates : m.dates = s.dates)
    (hvals : ∀ f date, m.val f t date = s.val f date) :
    data_download [t] (Resp.multi m) = data_download [t] (Resp.flat s) := by
  simp only [data_download, List.map_cons, List.map_nil]
  rw [hdates]
  congr 1
  induction firstDedup s.dates with
  | nil => rfl
  | cons d l ih =>
      simp only [List.map_cons, List.flatten_cons, List.singleton_append]
      rw [ih]
      congr 1
      simp only [hvals]

/-- Witness for C8 on the example responses (a repeated index date and
equal per-field values). -/
theorem data_download_roundtrip_instance :
    data_download ["Z"] (Resp.multi exMulti) = data_download ["Z"] (Resp.flat exSingle) :=
  data_download_roundtrip ("Z") exSingle exMulti rfl (fun _ _ => rfl)

/-! Claim C10. -/

theorem flatten_map_map_length {γ : Type} (dts : List Nat) (ts : List String)
    (f : Nat → String → γ) :
    ((dts.map (fun dd => ts.map (f dd))).flatten).length = dts.length * ts.length := by
  induction dts with
  | nil => simp
  | cons dd l ih =>
      simp only [List.map_cons, List.flatten_cons, List.length_append, ih,
        List.length_map, List.length_cons]
      ring

theorem sum_ite_count (d : Nat) (l : List Nat) :
    (l.map (fun x => if x == d then 1 else 0)).sum = l.count d := by
  induction l with
  | nil => rfl
  | cons x l ih =>
      simp only [List.map_cons, List.sum_cons, ih, List.count_cons]
      by_cases hx : x = d
      · simp [hx, Nat.add_comm]
      · have hb : (x == d) = false := by simpa using hx
        simp [hb]

theorem countP_grid (dts : List Nat) (ts : List String) (d : Nat) (t : String)
    (g : Nat → String → PriceRecord)
    (hgd : ∀ dd tk, (g dd tk).date = dd) (hgt : ∀ dd tk, (g dd tk).ticker = tk)
    (hdts : dts.Nodup) (hts : ts.Nodup) (hd : d ∈ dts) (ht : t ∈ ts) :
    ((dts.map (fun dd => ts.map (g dd))).flatten).countP
      (fun r => r.date == d && r.ticker == t) = 1 := by
  rw [List.countP_flatten, List.map_map]
  have hmap : (dts.map (List.countP (fun r => r.date == d && r.ticker == t) ∘
      (fun dd => ts.map (g dd)))) = dts.map (fun dd => if dd == d then 1 else 0) := by
    apply List.map_congr_left
    intro dd _
    simp only [Function.comp_apply, List.countP_map]
    have hcg : List.countP ((fun r => r.date == d && r.ticker == t) ∘ g dd) ts
        = List.countP (fun tk => (dd == d) && (tk == t)) ts := by
      apply List.countP_congr
      intro tk _
      simp only [Function.comp_apply, hgd, hgt]
    rw [hcg]
    by_cases hdd : dd = d
    · subst hdd
      simp only [beq_self_eq_true, Bool.true_and, if_true]
      rw [← List.count_eq_countP]
      exact List.count_eq_one_of_mem hts ht
    · have hb : (dd == d) = false := by simpa using hdd
      simp only [hb, Bool.false_and, if_false]
      exact List.countP_eq_zero.mpr (fun a _ => by simp)
  rw [hmap, sum_ite_count]
  exact List.count_eq_one_of_mem hdts hd

/-- C10: in the multi-instrument branch, exactly one record is emitted per
(date, ticker) pair from the Cartesian product of the response's unique
dates and the requested ticker list — every requested ticker receives a
record for every date, its fields possibly missing values — and the record
count is the number of unique dates times the number of tickers. -/
theorem data_download_multi_product (tickers : List String) (m : MultiResp)
    (records : List PriceRecord) (d : Nat) (t : String)
    (hnd : tickers.Nodup) (ht : t ∈ tickers) (hd : d ∈ firstDedup m.dates)
    (hres : data_download tickers (Resp.multi m) = some records) :
    (records.length = (firstDedup m.dates).length * tickers.length ∧
      records.countP (fun r => r.date == d && r.ticker == t) = 1) := by
  cases tickers with
  | nil => simp at ht
  | cons t0 ts =>
      simp only [data_download] at hres
      injection hres with hres
      subst hres
      constructor
      · exact flatten_map_map_length _ _ _
      · exact countP_grid _ _ d t _ (fun _ _ => rfl) (fun _ _ => rfl)
          (nodup_firstDedup _) hnd hd ht

/-- Witness for C10: two tickers, two unique dates (one repeated in the
index), four records, and exactly one record for (11, Q). -/
theorem data_download_multi_product_instance :
    (([({ ticker := "P", date := 10, op := some 10, high := some 10,
           low := some 10, close := some 10 } : PriceRecord),
        { ticker := "Q", date := 10, op := some 10, high := some 10,
           low := some 10, close := some 10 },
        { ticker := "P", date := 11, op := some 11, high := some 11,
           low := some 11, close := some 11 },
        { ticker := "Q", date := 11, op := some 11, high := some 11,
           low := some 11, close := some 11 }]).length
        = (firstDedup exMulti.dates).length * (["P", "Q"]).length ∧
      ([({ ticker := "P", date := 10, op := some 10, high := some 10,
           low := some 10, close := some 10 } : PriceRecord),
        { ticker := "Q", date := 10, op := some 10, high := some 10,
           low := some 10, close := some 10 },
        { ticker := "P", date := 11, op := some 11, high := some 11,
           low := some 11, close := some 11 },
        { ticker := "Q", date := 11, op := some 11, high := some 11,
           low := some 11, close := some 11 }]).countP
        (fun r => r.date == 11 && r.ticker == "Q") = 1) :=
  data_download_multi_product ["P", "Q"] exMulti _ 11 ("Q")
    (by decide) (by decide) (by decide) rfl

/-! Claim C9. -/

theorem insert_record_uniqueKeys {col : List PriceRecord} (h : uniqueKeys col)
    (r : PriceRecord) : uniqueKeys (insert_record col r) := by
  unfold insert_record
  by_cases hc : col.any (sameKey r) = true
  · rw [if_pos hc]; exact h
  · rw [if_neg hc]
    unfold uniqueKeys at h ⊢
    rw [List.pairwise_append]
    refine ⟨h, List.pairwise_singleton _ _, ?_⟩
    intro q hq b hb
    rw [List.mem_singleton] at hb
    subst hb
    rintro ⟨h1, h2⟩
    apply hc
    rw [List.any_eq_true]
    exact ⟨q, hq, by simp [sameKey, h1, h2]⟩

theorem countP_sameKey_le_one {col : List PriceRecord} (h : uniqueKeys col)
    (r : PriceRecord) : col.countP (sameKey r) ≤ 1 := by
  induction col with
  | nil => simp
  | cons q col ih =>
      unfold uniqueKeys at h
      rcases List.pairwise_cons.mp h with ⟨hq, hcol⟩
      rw [List.countP_cons]
      by_cases hk : sameKey r q = true
      · have hz : col.countP (sameKey r) = 0 := by
          rw [List.countP_eq_zero]
          intro x hx hkx
          apply hq x hx
          have e1 : q.ticker = r.ticker ∧ q.date = r.date := by
            have := hk
            simp only [sameKey, Bool.and_eq_true, beq_iff_eq] at this
            exact this
          have e2 : x.ticker = r.ticker ∧ x.date = r.date := by
            simp only [sameKey, Bool.and_eq_true, beq_iff_eq] at hkx
            exact hkx
          exact ⟨e1.1.trans e2.1.symm, e1.2.trans e2.2.symm⟩
        rw [hz, if_pos hk]
      · rw [if_neg hk]
        have := ih hcol
        omega

theorem import_bulk_uniqueKeys {col : List PriceRecord} (h : uniqueKeys col)
    (rs : List PriceRecord) : uniqueKeys (import_bulk col rs) := by
  induction rs generalizing col with
  | nil => exact h
  | cons r rs ih => exact ih (insert_record_uniqueKeys h r)

theorem insert_record_key_present (col : List PriceRecord) (r : PriceRecord) :
    0 < (insert_record col r).countP (sameKey r) := by
  unfold insert_record
  by_cases hc : col.any (sameKey r) = true
  · rw [if_pos hc]
    rw [List.any_eq_true] at hc
    exact List.countP_pos_iff.mpr hc
  · rw [if_neg hc]
    refine List.countP_pos_iff.mpr ⟨r, by simp, ?_⟩
    simp [sameKey]

/-- C9: starting from any store whose rows have pairwise distinct
(ticker, date) keys, bulk upserts preserve that uniqueness (no sequence of
upserts yields two rows with one key — at most one row matches any key),
and upserting the same record twice leaves exactly one row for its key.
The storage layer is modelled from the spec (unique hash index on ticker
and date). -/
theorem import_bulk_unique_key (col : List PriceRecord) (rs : List PriceRecord)
    (r q : PriceRecord) (h : uniqueKeys col) :
    uniqueKeys (import_bulk col rs) ∧
      (import_bulk col rs).countP (sameKey q) ≤ 1 ∧
      (import_bulk (import_bulk col [r]) [r]).countP (sameKey r) = 1 := by
  refine ⟨import_bulk_uniqueKeys h rs,
    countP_sameKey_le_one (import_bulk_uniqueKeys h rs) q, ?_⟩
  have h1 : uniqueKeys (import_bulk col [r]) := import_bulk_uniqueKeys h [r]
  have h2 : uniqueKeys (import_bulk (import_bulk col [r]) [r]) :=
    import_bulk_uniqueKeys h1 [r]
  have hle := countP_sameKey_le_one h2 r
  have hpos : 0 < (import_bulk (import_bulk col [r]) [r]).countP (sameKey r) := by
    have : import_bulk (import_bulk col [r]) [r]
        = insert_record (import_bulk col [r]) r := rfl
    rw [this]
    exact insert_record_key_present _ r
  omega

/-- Witness for C9 from the empty store. -/
theorem import_bulk_unique_key_instance :
    uniqueKeys (import_bulk [] [exRec]) ∧
      (import_bulk [] [exRec]).countP (sameKey exRec) ≤ 1 ∧
      (import_bulk (import_bulk [] [exRec]) [exRec]).countP (sameKey exRec) = 1 :=
  import_bulk_unique_key [] [exRec] exRec exRec List.Pairwise.nil

end StockDownloader
